import Mathlib

/-!
Shallow embedding of `searchlib/src/vespa/searchlib/queryeval/flow.h`:
cost-based evaluation-order modelling for AND / OR / AND-NOT query nodes.

C++ `double` values are modelled as exact rationals.  A child is a record of
the three capability queries `estimate()`, `cost()`, `strict_cost()`; the
C++ adapters (`DefaultAdapter`, `IndirectAdapter`) only decouple storage
from access, so children are passed directly as lists and the index
indirection in `FlowMixin::cost_of` is modelled by sorting the list itself.
`std::sort` is modelled by a stable comparison sort over the same
comparator (any valid `std::sort` output satisfies its postcondition that
no pair is inverted with respect to the comparator).
-/

namespace Vespa

/-- Embeds a child node as seen through the capability contract:
fields `est`, `cost`, `scost` model `estimate()`, `cost()`, `strict_cost()`. -/
structure Child where
  est : ℚ
  cost : ℚ
  scost : ℚ
  deriving DecidableEq, Repr

/-- Embeds `flow::MinAndCost::operator()`:
`(1.0 - adapter.estimate(a)) * adapter.cost(b) > (1.0 - adapter.estimate(b)) * adapter.cost(a)`. -/
def minAndCost (a b : Child) : Bool :=
  decide ((1 - a.est) * b.cost > (1 - b.est) * a.cost)

/-- Embeds `flow::MinOrCost::operator()`:
`adapter.estimate(a) * adapter.cost(b) > adapter.estimate(b) * adapter.cost(a)`. -/
def minOrCost (a b : Child) : Bool :=
  decide (a.est * b.cost > b.est * a.cost)

/-- Embeds `flow::MinOrStrictCost::operator()`:
`adapter.estimate(a) * adapter.strict_cost(b) > adapter.estimate(b) * adapter.strict_cost(a)`. -/
def minOrStrictCost (a b : Child) : Bool :=
  decide (a.est * b.scost > b.est * a.scost)

/-- Embeds the common shape of the three flow accumulators
(`add`, `flow`, `strict`, `estimate`), as used generically by
`flow::estimate_of` and `flow::ordered_cost_of`. -/
class FlowAcc (F : Type) where
  add : F → ℚ → F
  flow : F → ℚ
  strict : F → Bool
  estimate : F → ℚ

/-- Embeds the `class AndFlow` state: members `_flow`, `_strict`, `_first`. -/
structure AndFlow where
  _flow : ℚ
  _strict : Bool
  _first : Bool
  deriving DecidableEq, Repr

/-- Embeds the `AndFlow(double in, bool strict)` constructor:
`_flow(in), _strict(strict), _first(true)`. -/
def AndFlow.init (f : ℚ) (strict : Bool) : AndFlow := ⟨f, strict, true⟩

/-- Embeds `AndFlow::add`: `_flow *= est; _first = false;`. -/
def AndFlow.add (s : AndFlow) (est : ℚ) : AndFlow :=
  { s with _flow := s._flow * est, _first := false }

/-- Embeds `AndFlow::flow`. -/
def AndFlow.flow (s : AndFlow) : ℚ := s._flow

/-- Embeds `AndFlow::strict`: `_strict && _first`. -/
def AndFlow.strict (s : AndFlow) : Bool := s._strict && s._first

/-- Embeds `AndFlow::estimate`: `_first ? 0.0 : _flow`. -/
def AndFlow.estimate (s : AndFlow) : ℚ := if s._first then 0 else s._flow

instance : FlowAcc AndFlow := ⟨AndFlow.add, AndFlow.flow, AndFlow.strict, AndFlow.estimate⟩

/-- Embeds the `class OrFlow` state. -/
structure OrFlow where
  _flow : ℚ
  _strict : Bool
  _first : Bool
  deriving DecidableEq, Repr

/-- Embeds the `OrFlow(double in, bool strict)` constructor. -/
def OrFlow.init (f : ℚ) (strict : Bool) : OrFlow := ⟨f, strict, true⟩

/-- Embeds `OrFlow::add`: `_flow *= (1.0 - est); _first = false;`. -/
def OrFlow.add (s : OrFlow) (est : ℚ) : OrFlow :=
  { s with _flow := s._flow * (1 - est), _first := false }

/-- Embeds `OrFlow::flow`. -/
def OrFlow.flow (s : OrFlow) : ℚ := s._flow

/-- Embeds `OrFlow::strict`: returns `_strict`. -/
def OrFlow.strict (s : OrFlow) : Bool := s._strict

/-- Embeds `OrFlow::estimate`: `_first ? 0.0 : (1.0 - _flow)`. -/
def OrFlow.estimate (s : OrFlow) : ℚ := if s._first then 0 else 1 - s._flow

instance : FlowAcc OrFlow := ⟨OrFlow.add, OrFlow.flow, OrFlow.strict, OrFlow.estimate⟩

/-- Embeds the `class AndNotFlow` state. -/
structure AndNotFlow where
  _flow : ℚ
  _strict : Bool
  _first : Bool
  deriving DecidableEq, Repr

/-- Embeds the `AndNotFlow(double in, bool strict)` constructor. -/
def AndNotFlow.init (f : ℚ) (strict : Bool) : AndNotFlow := ⟨f, strict, true⟩

/-- Embeds `AndNotFlow::add`: `_flow *= _first ? est : (1.0 - est); _first = false;`. -/
def AndNotFlow.add (s : AndNotFlow) (est : ℚ) : AndNotFlow :=
  { s with _flow := s._flow * (if s._first then est else 1 - est), _first := false }

/-- Embeds `AndNotFlow::flow`. -/
def AndNotFlow.flow (s : AndNotFlow) : ℚ := s._flow

/-- Embeds `AndNotFlow::strict`: `_strict && _first`. -/
def AndNotFlow.strict (s : AndNotFlow) : Bool := s._strict && s._first

/-- Embeds `AndNotFlow::estimate`: `_first ? 0.0 : _flow`. -/
def AndNotFlow.estimate (s : AndNotFlow) : ℚ := if s._first then 0 else s._flow

instance : FlowAcc AndNotFlow := ⟨AndNotFlow.add, AndNotFlow.flow, AndNotFlow.strict, AndNotFlow.estimate⟩

namespace flow

/-- Folds each child estimate through the accumulator in order, as done by
the loop of `flow::estimate_of`. -/
def foldAdd {F : Type} [FlowAcc F] (f : F) (children : List Child) : F :=
  children.foldl (fun acc child => FlowAcc.add acc child.est) f

/-- Embeds `flow::estimate_of(adapter, children, flow)`: fold each child
estimate through the accumulator, then read `estimate()`. -/
def estimate_of {F : Type} [FlowAcc F] (children : List Child) (f : F) : ℚ :=
  FlowAcc.estimate (foldAdd f children)

/-- Embeds `flow::ordered_cost_of(adapter, children, flow)`: for each child
in order, add `flow.flow() * (flow.strict() ? strict_cost : cost)` to the
running cost, then `flow.add(estimate)`; the C++ cost accumulator is
rendered as a structurally recursive sum of the same per-child terms. -/
def ordered_cost_of {F : Type} [FlowAcc F] : List Child → F → ℚ
  | [], _ => 0
  | child :: rest, f =>
      FlowAcc.flow f * (if FlowAcc.strict f then child.scost else child.cost)
        + ordered_cost_of rest (FlowAcc.add f child.est)

/-- Embeds the loop state of `flow::select_strict_and_child`:
`idx`, `cost`, `best_idx`, `best_diff`, `est`. -/
structure SelState where
  idx : Nat
  cost : ℚ
  best_idx : Nat
  best_diff : ℚ
  est : ℚ
  deriving DecidableEq, Repr

/-- Embeds one iteration of the `select_strict_and_child` loop body. -/
def selStep (s : SelState) (child : Child) : SelState :=
  let child_cost := s.est * child.cost
  let child_strict_cost := child.scost
  let child_est := child.est
  let s' :=
    if s.idx = 0 then
      { s with best_diff := child_strict_cost - child_cost }
    else
      let my_diff := (child_strict_cost + child_est * s.cost) - (s.cost + child_cost)
      if my_diff < s.best_diff then
        { s with best_diff := my_diff, best_idx := s.idx }
      else s
  { s' with cost := s'.cost + child_cost, est := s'.est * child_est, idx := s'.idx + 1 }

/-- Embeds `flow::select_strict_and_child(adapter, children)`. -/
def select_strict_and_child (children : List Child) : Nat :=
  (children.foldl selStep ⟨0, 0, 0, 0, 1⟩).best_idx

end flow

/-- Embeds `std::sort(begin, end, ORDER(adapter))` as used by `flow::sort`:
a comparison sort whose output has no pair inverted with respect to the
strict comparator `cmp` (modelled by a stable insertion sort over the
non-inversion relation). -/
def sortBy (cmp : Child → Child → Bool) (l : List Child) : List Child :=
  List.insertionSort (fun a b => cmp b a = false) l

/-- Embeds the shifting insert in `AndFlow::sort`: move element `idx` to
position 0, shifting elements `0..idx-1` one position up. -/
def promote (idx : Nat) (l : List Child) : List Child :=
  match l[idx]? with
  | some x => x :: l.eraseIdx idx
  | none => l

/-- Embeds `AndFlow::sort(adapter, children, strict)`: full sort by
`MinAndCost`; when strict and more than one child,
`select_strict_and_child` picks the strict driver, which is moved to the
front. -/
def AndFlow.sortList (strict : Bool) (children : List Child) : List Child :=
  let sorted := sortBy minAndCost children
  if strict && decide (1 < sorted.length) then
    promote (flow.select_strict_and_child sorted) sorted
  else sorted

/-- Embeds `OrFlow::sort(adapter, children, strict)`: full sort by
`MinOrStrictCost` when strict, else by `MinOrCost`. -/
def OrFlow.sortList (strict : Bool) (children : List Child) : List Child :=
  if strict then sortBy minOrStrictCost children else sortBy minOrCost children

/-- Embeds `AndNotFlow::sort(adapter, children, strict)`, which is
`flow::sort_partial<flow::MinOrCost>(adapter, children, 1)`: the first
child stays in place, children from index 1 on are sorted by `MinOrCost`. -/
def AndNotFlow.sortList (_strict : Bool) (children : List Child) : List Child :=
  match children with
  | [] => []
  | x :: xs => x :: sortBy minOrCost xs

/-- Embeds `FlowMixin<AndFlow>::estimate_of(children)`: fold in insertion
order through `AndFlow(1.0, false)`. -/
def AndFlow.estimate_of (children : List Child) : ℚ :=
  flow.estimate_of children (AndFlow.init 1 false)

/-- Embeds `FlowMixin<OrFlow>::estimate_of(children)`. -/
def OrFlow.estimate_of (children : List Child) : ℚ :=
  flow.estimate_of children (OrFlow.init 1 false)

/-- Embeds `FlowMixin<AndNotFlow>::estimate_of(children)`. -/
def AndNotFlow.estimate_of (children : List Child) : ℚ :=
  flow.estimate_of children (AndNotFlow.init 1 false)

/-- Embeds `FlowMixin<AndFlow>::cost_of(children, strict)`: sort (via the
index adapter, modelled directly on the list), then `ordered_cost_of`
seeded with `AndFlow(1.0, strict)`. -/
def AndFlow.cost_of (children : List Child) (strict : Bool) : ℚ :=
  flow.ordered_cost_of (AndFlow.sortList strict children) (AndFlow.init 1 strict)

/-- Embeds `FlowMixin<OrFlow>::cost_of(children, strict)`. -/
def OrFlow.cost_of (children : List Child) (strict : Bool) : ℚ :=
  flow.ordered_cost_of (OrFlow.sortList strict children) (OrFlow.init 1 strict)

/-- Embeds `FlowMixin<AndNotFlow>::cost_of(children, strict)`. -/
def AndNotFlow.cost_of (children : List Child) (strict : Bool) : ℚ :=
  flow.ordered_cost_of (AndNotFlow.sortList strict children) (AndNotFlow.init 1 strict)

/-- Per-child non-strict cost charges of an AND flow, each weighted by the
product of the estimates of the earlier children (weight `f` entering). -/
def weightedCostSum (f : ℚ) : List Child → ℚ
  | [] => 0
  | y :: ys => f * y.cost + weightedCostSum (f * y.est) ys

/-- Spec-side total-cost formula for an AND node over the final order:
the first child is charged `strict_cost` exactly when strict (weight 1),
each later child is charged its non-strict cost weighted by the product
of the estimates of the earlier children. -/
def andCostSpec (strict : Bool) : List Child → ℚ
  | [] => 0
  | x :: xs => (if strict then x.scost else x.cost) + weightedCostSum x.est xs

/-- Modelled from the spec (claim side of `select_strict_and_child`): the
candidate values, reading the subtracted term as the raw child cost
`cost(i)`; `cost` and `est` are the accumulators over earlier children. -/
def claimDiffs (cost est : ℚ) : List Child → List ℚ
  | [] => []
  | c :: cs =>
      (c.scost + c.est * cost - (cost + c.cost))
        :: claimDiffs (cost + est * c.cost) (est * c.est) cs

/-- Code-side candidate values of `select_strict_and_child`: the
subtracted term is `child_cost = est * cost(child)`, the raw cost scaled
by the running estimate product of earlier children. -/
def codeDiffs (cost est : ℚ) : List Child → List ℚ
  | [] => []
  | c :: cs =>
      (c.scost + c.est * cost - (cost + est * c.cost))
        :: codeDiffs (cost + est * c.cost) (est * c.est) cs

/-- Swap of the two adjacent elements at positions `i` and `i+1` (identity
when the list is too short). -/
def swapAdj : List Child → Nat → List Child
  | a :: b :: rest, 0 => b :: a :: rest
  | x :: rest, n + 1 => x :: swapAdj rest n
  | l, _ => l

/-! ## Fold characterizations of the accumulators -/

theorem andFoldAdd (l : List Child) : ∀ (f : ℚ) (b fst : Bool),
    flow.foldAdd (⟨f, b, fst⟩ : AndFlow) l
      = ⟨f * (l.map Child.est).prod, b, fst && l.isEmpty⟩ := by
  induction l with
  | nil => intro f b fst; simp [flow.foldAdd]
  | cons x xs ih =>
      intro f b fst
      have h1 : flow.foldAdd (⟨f, b, fst⟩ : AndFlow) (x :: xs)
          = flow.foldAdd (⟨f * x.est, b, false⟩ : AndFlow) xs := rfl
      rw [h1, ih]
      simp [mul_assoc]

theorem orFoldAdd (l : List Child) : ∀ (f : ℚ) (b fst : Bool),
    flow.foldAdd (⟨f, b, fst⟩ : OrFlow) l
      = ⟨f * (l.map (fun c => 1 - c.est)).prod, b, fst && l.isEmpty⟩ := by
  induction l with
  | nil => intro f b fst; simp [flow.foldAdd]
  | cons x xs ih =>
      intro f b fst
      have h1 : flow.foldAdd (⟨f, b, fst⟩ : OrFlow) (x :: xs)
          = flow.foldAdd (⟨f * (1 - x.est), b, false⟩ : OrFlow) xs := rfl
      rw [h1, ih]
      simp [mul_assoc]

theorem andNotFoldAdd (l : List Child) : ∀ (f : ℚ) (b : Bool),
    flow.foldAdd (⟨f, b, false⟩ : AndNotFlow) l
      = ⟨f * (l.map (fun c => 1 - c.est)).prod, b, false && l.isEmpty⟩ := by
  induction l with
  | nil => intro f b; simp [flow.foldAdd]
  | cons x xs ih =>
      intro f b
      have h1 : flow.foldAdd (⟨f, b, false⟩ : AndNotFlow) (x :: xs)
          = flow.foldAdd (⟨f * (1 - x.est), b, false⟩ : AndNotFlow) xs := rfl
      rw [h1, ih]
      simp [mul_assoc]

theorem andEstClosed (l : List Child) :
    AndFlow.estimate_of l = if l = [] then 0 else (l.map Child.est).prod := by
  cases l with
  | nil => simp [AndFlow.estimate_of, flow.estimate_of, AndFlow.init, flow.foldAdd,
                 FlowAcc.estimate, AndFlow.estimate]
  | cons x xs =>
      simp [AndFlow.estimate_of, flow.estimate_of, AndFlow.init, andFoldAdd,
            FlowAcc.estimate, AndFlow.estimate]

theorem orEstClosed (l : List Child) :
    OrFlow.estimate_of l = if l = [] then 0 else 1 - (l.map (fun c => 1 - c.est)).prod := by
  cases l with
  | nil => simp [OrFlow.estimate_of, flow.estimate_of, OrFlow.init, flow.foldAdd,
                 FlowAcc.estimate, OrFlow.estimate]
  | cons x xs =>
      simp [OrFlow.estimate_of, flow.estimate_of, OrFlow.init, orFoldAdd,
            FlowAcc.estimate, OrFlow.estimate]

theorem andNotEstClosed (x : Child) (xs : List Child) :
    AndNotFlow.estimate_of (x :: xs) = x.est * (xs.map (fun c => 1 - c.est)).prod := by
  have h1 : flow.foldAdd (AndNotFlow.init 1 false) (x :: xs)
      = flow.foldAdd (⟨1 * x.est, false, false⟩ : AndNotFlow) xs := rfl
  simp [AndNotFlow.estimate_of, flow.estimate_of, h1, andNotFoldAdd,
        FlowAcc.estimate, AndNotFlow.estimate]

/-! ## Claims about estimate_of -/

/-- C6: for an AND node, `estimate_of` returns the product of the child
estimates when there is at least one child, and `0.0` for no children. -/
theorem and_estimate_of_eq (l : List Child) :
    AndFlow.estimate_of l = if l = [] then 0 else (l.map Child.est).prod :=
  andEstClosed l

/-- C7: for an OR node, `estimate_of` returns `1 - prod (1 - ei)` when
there is at least one child, and `0.0` for no children. -/
theorem or_estimate_of_eq (l : List Child) :
    OrFlow.estimate_of l = if l = [] then 0 else 1 - (l.map (fun c => 1 - c.est)).prod :=
  orEstClosed l

/-- C8: for an AND-NOT node, `estimate_of` returns `e1 * prod (1 - ei)`
over the remaining children when non-empty, `0.0` when empty; on children
with estimates `0.9` and `0.5` it returns `0.45`. -/
theorem andnot_estimate_of_eq :
    (∀ (x : Child) (xs : List Child),
        AndNotFlow.estimate_of (x :: xs) = x.est * (xs.map (fun c => 1 - c.est)).prod)
    ∧ AndNotFlow.estimate_of [] = 0
    ∧ AndNotFlow.estimate_of [⟨9/10, 1, 1⟩, ⟨1/2, 2, 1⟩] = 9/20 := by
  refine ⟨fun x xs => andNotEstClosed x xs, ?_, ?_⟩
  · simp [AndNotFlow.estimate_of, flow.estimate_of, AndNotFlow.init, flow.foldAdd,
          FlowAcc.estimate, AndNotFlow.estimate]
  · rw [andNotEstClosed]
    norm_num

/-- C4 counterexample: `estimate_of` for AND-NOT is not permutation
invariant: the two-child lists with estimates `[1, 0]` and `[0, 1]` are
permutations of each other but yield estimates `1` and `0`. -/
theorem estimate_order_cex :
    List.Perm [(⟨1, 0, 0⟩ : Child), ⟨0, 0, 0⟩] [⟨0, 0, 0⟩, ⟨1, 0, 0⟩]
    ∧ AndNotFlow.estimate_of [⟨1, 0, 0⟩, ⟨0, 0, 0⟩] = 1
    ∧ AndNotFlow.estimate_of [⟨0, 0, 0⟩, ⟨1, 0, 0⟩] = 0
    ∧ (1 : ℚ) ≠ 0 := by
  refine ⟨List.Perm.swap _ _ _, ?_, ?_, one_ne_zero⟩
  · rw [andNotEstClosed]; norm_num
  · rw [andNotEstClosed]; norm_num

/-- C4 amended: `estimate_of` is permutation invariant for AND and OR
nodes; for AND-NOT nodes it is invariant under every permutation that
keeps the first child in place. -/
theorem estimate_of_perm :
    (∀ l l' : List Child, l.Perm l' → AndFlow.estimate_of l = AndFlow.estimate_of l')
    ∧ (∀ l l' : List Child, l.Perm l' → OrFlow.estimate_of l = OrFlow.estimate_of l')
    ∧ (∀ (x : Child) (xs xs' : List Child), xs.Perm xs' →
        AndNotFlow.estimate_of (x :: xs) = AndNotFlow.estimate_of (x :: xs')) := by
  refine ⟨?_, ?_, ?_⟩
  · intro l l' h
    rw [andEstClosed, andEstClosed]
    by_cases hl : l = []
    · subst hl
      rw [h.symm.eq_nil]
    · have hl' : l' ≠ [] := by
        intro h2
        subst h2
        exact hl h.eq_nil
      rw [if_neg hl, if_neg hl']
      exact (h.map Child.est).prod_eq
  · intro l l' h
    rw [orEstClosed, orEstClosed]
    by_cases hl : l = []
    · subst hl
      rw [h.symm.eq_nil]
    · have hl' : l' ≠ [] := by
        intro h2
        subst h2
        exact hl h.eq_nil
      rw [if_neg hl, if_neg hl']
      rw [(h.map (fun c => 1 - c.est)).prod_eq]
  · intro x xs xs' h
    rw [andNotEstClosed, andNotEstClosed, (h.map (fun c => 1 - c.est)).prod_eq]

/-- C4 witness: concrete permutation instances for the amended claim. -/
theorem estimate_of_perm_witness :
    AndFlow.estimate_of [(⟨1/2, 1, 1⟩ : Child), ⟨1/3, 2, 2⟩]
        = AndFlow.estimate_of [⟨1/3, 2, 2⟩, ⟨1/2, 1, 1⟩]
    ∧ OrFlow.estimate_of [(⟨1/2, 1, 1⟩ : Child), ⟨1/3, 2, 2⟩]
        = OrFlow.estimate_of [⟨1/3, 2, 2⟩, ⟨1/2, 1, 1⟩]
    ∧ AndNotFlow.estimate_of [(⟨1/2, 1, 1⟩ : Child), ⟨1/3, 2, 2⟩, ⟨1/4, 1, 1⟩]
        = AndNotFlow.estimate_of [⟨1/2, 1, 1⟩, ⟨1/4, 1, 1⟩, ⟨1/3, 2, 2⟩] :=
  ⟨estimate_of_perm.1 _ _ (List.Perm.swap _ _ _),
   estimate_of_perm.2.1 _ _ (List.Perm.swap _ _ _),
   estimate_of_perm.2.2 _ _ _ (List.Perm.swap _ _ _)⟩

/-! ## Sorting and cost claims -/

/-- C9: for any child sequence and either strictness flag, the AND-NOT
sort leaves the element at index 0 unchanged and only reorders the
elements from index 1 on (the output tail is a permutation of the input
tail produced by the MinOrCost sort). -/
theorem andnot_sort_keeps_head (l : List Child) (b : Bool) :
    (AndNotFlow.sortList b l).head? = l.head?
    ∧ (AndNotFlow.sortList b l).tail.Perm l.tail := by
  cases l with
  | nil => exact ⟨rfl, List.Perm.refl _⟩
  | cons x xs =>
      refine ⟨rfl, ?_⟩
      simpa [AndNotFlow.sortList, sortBy] using
        List.perm_insertionSort (fun a b => minOrCost b a = false) xs

theorem andOrderedCostWeighted : ∀ (l : List Child) (f : ℚ) (b fst : Bool),
    (b && fst) = false →
    flow.ordered_cost_of l (⟨f, b, fst⟩ : AndFlow) = weightedCostSum f l := by
  intro l
  induction l with
  | nil => intro f b fst h; rfl
  | cons c cs ih =>
      intro f b fst h
      have hstep : flow.ordered_cost_of (c :: cs) (⟨f, b, fst⟩ : AndFlow)
          = f * (if (b && fst) then c.scost else c.cost)
            + flow.ordered_cost_of cs (⟨f * c.est, b, false⟩ : AndFlow) := rfl
      rw [hstep, h, ih (f * c.est) b false (by simp)]
      simp [weightedCostSum]

/-- C2: `cost_of` for an AND node equals the sum, over the final sorted
order, of `flow()` times the per-child cost taken before each `add`,
where the per-child cost is `strict_cost` exactly while the accumulator
reports `strict()`; concretely, only the first child of the final order
is charged `strict_cost` (when strict), and every later child is charged
its non-strict cost weighted by the product of the earlier estimates. -/
theorem and_cost_of_eq :
    (∀ (m : List Child) (b : Bool),
        flow.ordered_cost_of m (AndFlow.init 1 b) = andCostSpec b m)
    ∧ ∀ (l : List Child) (b : Bool),
        AndFlow.cost_of l b = andCostSpec b (AndFlow.sortList b l) := by
  have key : ∀ (m : List Child) (b : Bool),
      flow.ordered_cost_of m (AndFlow.init 1 b) = andCostSpec b m := by
    intro m b
    cases m with
    | nil => rfl
    | cons x xs =>
        have hstep : flow.ordered_cost_of (x :: xs) (AndFlow.init 1 b)
            = 1 * (if (b && true) then x.scost else x.cost)
              + flow.ordered_cost_of xs (⟨1 * x.est, b, false⟩ : AndFlow) := rfl
        rw [hstep, andOrderedCostWeighted xs (1 * x.est) b false (by simp)]
        cases b <;> simp [andCostSpec]
  exact ⟨key, fun l b => key _ b⟩

/-! ## Flow-range invariants -/

theorem andFoldBounds : ∀ (l : List Child) (s : AndFlow),
    (∀ c ∈ l, 0 ≤ c.est ∧ c.est ≤ 1) → 0 ≤ s._flow → s._flow ≤ 1 →
    0 ≤ (flow.foldAdd s l)._flow ∧ (flow.foldAdd s l)._flow ≤ 1 := by
  intro l
  induction l with
  | nil => intro s _ h0 h1; exact ⟨h0, h1⟩
  | cons c cs ih =>
      intro s h h0 h1
      have hc := h c (List.mem_cons_self _ _)
      have hstep : flow.foldAdd s (c :: cs) = flow.foldAdd (AndFlow.add s c.est) cs := rfl
      rw [hstep]
      refine ih _ (fun x hx => h x (List.mem_cons_of_mem _ hx)) (mul_nonneg h0 hc.1) ?_
      calc s._flow * c.est ≤ 1 * 1 := mul_le_mul h1 hc.2 hc.1 (by norm_num)
        _ = 1 := by norm_num

theorem orFoldBounds : ∀ (l : List Child) (s : OrFlow),
    (∀ c ∈ l, 0 ≤ c.est ∧ c.est ≤ 1) → 0 ≤ s._flow → s._flow ≤ 1 →
    0 ≤ (flow.foldAdd s l)._flow ∧ (flow.foldAdd s l)._flow ≤ 1 := by
  intro l
  induction l with
  | nil => intro s _ h0 h1; exact ⟨h0, h1⟩
  | cons c cs ih =>
      intro s h h0 h1
      have hc := h c (List.mem_cons_self _ _)
      have hstep : flow.foldAdd s (c :: cs) = flow.foldAdd (OrFlow.add s c.est) cs := rfl
      rw [hstep]
      refine ih _ (fun x hx => h x (List.mem_cons_of_mem _ hx))
        (mul_nonneg h0 (by linarith [hc.2])) ?_
      calc s._flow * (1 - c.est) ≤ 1 * 1 :=
            mul_le_mul h1 (by linarith [hc.1]) (by linarith [hc.2]) (by norm_num)
        _ = 1 := by norm_num

theorem andNotFoldBounds : ∀ (l : List Child) (s : AndNotFlow),
    (∀ c ∈ l, 0 ≤ c.est ∧ c.est ≤ 1) → 0 ≤ s._flow → s._flow ≤ 1 →
    0 ≤ (flow.foldAdd s l)._flow ∧ (flow.foldAdd s l)._flow ≤ 1 := by
  intro l
  induction l with
  | nil => intro s _ h0 h1; exact ⟨h0, h1⟩
  | cons c cs ih =>
      intro s h h0 h1
      have hc := h c (List.mem_cons_self _ _)
      have hstep : flow.foldAdd s (c :: cs) = flow.foldAdd (AndNotFlow.add s c.est) cs := rfl
      have hm0 : 0 ≤ (if s._first then c.est else 1 - c.est) := by
        split
        · exact hc.1
        · linarith [hc.2]
      have hm1 : (if s._first then c.est else 1 - c.est) ≤ 1 := by
        split
        · exact hc.2
        · linarith [hc.1]
      rw [hstep]
      refine ih _ (fun x hx => h x (List.mem_cons_of_mem _ hx)) (mul_nonneg h0 hm0) ?_
      calc s._flow * (if s._first then c.est else 1 - c.est) ≤ 1 * 1 :=
            mul_le_mul h1 hm1 hm0 (by norm_num)
        _ = 1 := by norm_num

/-- C10: for each accumulator started at flow `1.0`, if every estimate
passed to `add` lies in `[0,1]`, then `flow()` stays in `[0,1]`, one
further valid `add` never increases `flow()`, and `estimate()` lies in
`[0,1]`. -/
theorem flow_unit_invariant (l : List Child) (h : ∀ c ∈ l, 0 ≤ c.est ∧ c.est ≤ 1)
    (b : Bool) (e : ℚ) (he0 : 0 ≤ e) (he1 : e ≤ 1) :
    (0 ≤ (flow.foldAdd (AndFlow.init 1 b) l).flow
      ∧ (flow.foldAdd (AndFlow.init 1 b) l).flow ≤ 1
      ∧ ((flow.foldAdd (AndFlow.init 1 b) l).add e).flow
          ≤ (flow.foldAdd (AndFlow.init 1 b) l).flow
      ∧ 0 ≤ (flow.foldAdd (AndFlow.init 1 b) l).estimate
      ∧ (flow.foldAdd (AndFlow.init 1 b) l).estimate ≤ 1)
    ∧ (0 ≤ (flow.foldAdd (OrFlow.init 1 b) l).flow
      ∧ (flow.foldAdd (OrFlow.init 1 b) l).flow ≤ 1
      ∧ ((flow.foldAdd (OrFlow.init 1 b) l).add e).flow
          ≤ (flow.foldAdd (OrFlow.init 1 b) l).flow
      ∧ 0 ≤ (flow.foldAdd (OrFlow.init 1 b) l).estimate
      ∧ (flow.foldAdd (OrFlow.init 1 b) l).estimate ≤ 1)
    ∧ (0 ≤ (flow.foldAdd (AndNotFlow.init 1 b) l).flow
      ∧ (flow.foldAdd (AndNotFlow.init 1 b) l).flow ≤ 1
      ∧ ((flow.foldAdd (AndNotFlow.init 1 b) l).add e).flow
          ≤ (flow.foldAdd (AndNotFlow.init 1 b) l).flow
      ∧ 0 ≤ (flow.foldAdd (AndNotFlow.init 1 b) l).estimate
      ∧ (flow.foldAdd (AndNotFlow.init 1 b) l).estimate ≤ 1) := by
  obtain ⟨ha0, ha1⟩ := andFoldBounds l (AndFlow.init 1 b) h
    (by norm_num [AndFlow.init]) (by norm_num [AndFlow.init])
  obtain ⟨ho0, ho1⟩ := orFoldBounds l (OrFlow.init 1 b) h
    (by norm_num [OrFlow.init]) (by norm_num [OrFlow.init])
  obtain ⟨hn0, hn1⟩ := andNotFoldBounds l (AndNotFlow.init 1 b) h
    (by norm_num [AndNotFlow.init]) (by norm_num [AndNotFlow.init])
  refine ⟨⟨ha0, ha1, ?_, ?_, ?_⟩, ⟨ho0, ho1, ?_, ?_, ?_⟩, ⟨hn0, hn1, ?_, ?_, ?_⟩⟩
  · exact mul_le_of_le_one_right ha0 he1
  · simp only [AndFlow.estimate]
    split
    · norm_num
    · exact ha0
  · simp only [AndFlow.estimate]
    split
    · norm_num
    · exact ha1
  · exact mul_le_of_le_one_right ho0 (by linarith)
  · simp only [OrFlow.estimate]
    split
    · norm_num
    · linarith
  · simp only [OrFlow.estimate]
    split
    · norm_num
    · linarith
  · refine mul_le_of_le_one_right hn0 ?_
    split
    · exact he1
    · linarith
  · simp only [AndNotFlow.estimate]
    split
    · norm_num
    · exact hn0
  · simp only [AndNotFlow.estimate]
    split
    · norm_num
    · exact hn1

/-- C10 witness: the invariant instantiated on a concrete child list,
strictness flag and further estimate. -/
theorem flow_unit_invariant_witness :
    (0 ≤ (flow.foldAdd (AndFlow.init 1 true) [⟨1/2, 1, 1⟩]).flow
      ∧ (flow.foldAdd (AndFlow.init 1 true) [⟨1/2, 1, 1⟩]).flow ≤ 1
      ∧ ((flow.foldAdd (AndFlow.init 1 true) [⟨1/2, 1, 1⟩]).add (1/3)).flow
          ≤ (flow.foldAdd (AndFlow.init 1 true) [⟨1/2, 1, 1⟩]).flow
      ∧ 0 ≤ (flow.foldAdd (AndFlow.init 1 true) [⟨1/2, 1, 1⟩]).estimate
      ∧ (flow.foldAdd (AndFlow.init 1 true) [⟨1/2, 1, 1⟩]).estimate ≤ 1)
    ∧ (0 ≤ (flow.foldAdd (OrFlow.init 1 true) [⟨1/2, 1, 1⟩]).flow
      ∧ (flow.foldAdd (OrFlow.init 1 true) [⟨1/2, 1, 1⟩]).flow ≤ 1
      ∧ ((flow.foldAdd (OrFlow.init 1 true) [⟨1/2, 1, 1⟩]).add (1/3)).flow
          ≤ (flow.foldAdd (OrFlow.init 1 true) [⟨1/2, 1, 1⟩]).flow
      ∧ 0 ≤ (flow.foldAdd (OrFlow.init 1 true) [⟨1/2, 1, 1⟩]).estimate
      ∧ (flow.foldAdd (OrFlow.init 1 true) [⟨1/2, 1, 1⟩]).estimate ≤ 1)
    ∧ (0 ≤ (flow.foldAdd (AndNotFlow.init 1 true) [⟨1/2, 1, 1⟩]).flow
      ∧ (flow.foldAdd (AndNotFlow.init 1 true) [⟨1/2, 1, 1⟩]).flow ≤ 1
      ∧ ((flow.foldAdd (AndNotFlow.init 1 true) [⟨1/2, 1, 1⟩]).add (1/3)).flow
          ≤ (flow.foldAdd (AndNotFlow.init 1 true) [⟨1/2, 1, 1⟩]).flow
      ∧ 0 ≤ (flow.foldAdd (AndNotFlow.init 1 true) [⟨1/2, 1, 1⟩]).estimate
      ∧ (flow.foldAdd (AndNotFlow.init 1 true) [⟨1/2, 1, 1⟩]).estimate ≤ 1) :=
  flow_unit_invariant [⟨1/2, 1, 1⟩]
    (by intro c hc; simp at hc; subst hc; norm_num) true (1/3)
    (by norm_num) (by norm_num)

/-! ## Comparator ordering properties -/

theorem ratioLtTrans {ua ca ub cb uc cc : ℚ} (hca : 0 ≤ ca)
    (hub : 0 ≤ ub) (hcb : 0 ≤ cb) (huc : 0 ≤ uc)
    (h1 : ub * ca < ua * cb) (h2 : uc * cb < ub * cc) : uc * ca < ua * cc := by
  have hb2 : 0 < ub * cc := lt_of_le_of_lt (mul_nonneg huc hcb) h2
  have hcc0 : 0 < cc := by
    rcases mul_pos_iff.mp hb2 with ⟨_, h⟩ | ⟨h, _⟩
    · exact h
    · linarith
  have key : (uc * ca) * cb < (ua * cc) * cb := by
    calc (uc * ca) * cb = (uc * cb) * ca := by ring
      _ ≤ (ub * cc) * ca := mul_le_mul_of_nonneg_right (le_of_lt h2) hca
      _ = (ub * ca) * cc := by ring
      _ < (ua * cb) * cc := mul_lt_mul_of_pos_right h1 hcc0
      _ = (ua * cc) * cb := by ring
  exact lt_of_mul_lt_mul_right key hcb

theorem ratioTieTrans {ua ca ub cb uc cc : ℚ} (hcb : cb ≠ 0)
    (h1 : ua * cb = ub * ca) (h2 : ub * cc = uc * cb) : ua * cc = uc * ca := by
  apply mul_left_cancel₀ hcb
  linear_combination cc * h1 + ca * h2

/-- C5 counterexample: within the stated domain (estimates in `[0,1]`,
costs and strict costs `>= 0`) incomparability is not transitive for any
of the three comparators: the middle child with weight 0 and cost 0 ties
with everything while the outer children compare strictly. -/
theorem comparator_tie_cex :
    (minAndCost ⟨0, 1, 1⟩ ⟨1, 0, 0⟩ = false ∧ minAndCost ⟨1, 0, 0⟩ ⟨0, 1, 1⟩ = false
      ∧ minAndCost ⟨1, 0, 0⟩ ⟨1/2, 1, 1⟩ = false ∧ minAndCost ⟨1/2, 1, 1⟩ ⟨1, 0, 0⟩ = false
      ∧ minAndCost ⟨0, 1, 1⟩ ⟨1/2, 1, 1⟩ = true)
    ∧ (minOrCost ⟨1, 1, 1⟩ ⟨0, 0, 0⟩ = false ∧ minOrCost ⟨0, 0, 0⟩ ⟨1, 1, 1⟩ = false
      ∧ minOrCost ⟨0, 0, 0⟩ ⟨1/2, 1, 1⟩ = false ∧ minOrCost ⟨1/2, 1, 1⟩ ⟨0, 0, 0⟩ = false
      ∧ minOrCost ⟨1, 1, 1⟩ ⟨1/2, 1, 1⟩ = true)
    ∧ (minOrStrictCost ⟨1, 1, 1⟩ ⟨0, 1, 0⟩ = false ∧ minOrStrictCost ⟨0, 1, 0⟩ ⟨1, 1, 1⟩ = false
      ∧ minOrStrictCost ⟨0, 1, 0⟩ ⟨1/2, 1, 1⟩ = false ∧ minOrStrictCost ⟨1/2, 1, 1⟩ ⟨0, 1, 0⟩ = false
      ∧ minOrStrictCost ⟨1, 1, 1⟩ ⟨1/2, 1, 1⟩ = true) := by
  refine ⟨⟨?_, ?_, ?_, ?_, ?_⟩, ⟨?_, ?_, ?_, ?_, ?_⟩, ⟨?_, ?_, ?_, ?_, ?_⟩⟩ <;>
    norm_num [minAndCost, minOrCost, minOrStrictCost]

/-- C5 amended: each comparator is irreflexive unconditionally; the
less-than relation is transitive for estimates in `[0,1]` and
nonnegative (strict) costs; transitivity of incomparability additionally
needs the (strict) cost of the middle child to be strictly positive. -/
theorem comparators_swo :
    (∀ a : Child, minAndCost a a = false)
    ∧ (∀ a : Child, minOrCost a a = false)
    ∧ (∀ a : Child, minOrStrictCost a a = false)
    ∧ (∀ a b c : Child, a.est ≤ 1 → b.est ≤ 1 → c.est ≤ 1 →
        0 ≤ a.cost → 0 ≤ b.cost → 0 ≤ c.cost →
        minAndCost a b = true → minAndCost b c = true → minAndCost a c = true)
    ∧ (∀ a b c : Child, 0 ≤ a.est → 0 ≤ b.est → 0 ≤ c.est →
        0 ≤ a.cost → 0 ≤ b.cost → 0 ≤ c.cost →
        minOrCost a b = true → minOrCost b c = true → minOrCost a c = true)
    ∧ (∀ a b c : Child, 0 ≤ a.est → 0 ≤ b.est → 0 ≤ c.est →
        0 ≤ a.scost → 0 ≤ b.scost → 0 ≤ c.scost →
        minOrStrictCost a b = true → minOrStrictCost b c = true → minOrStrictCost a c = true)
    ∧ (∀ a b c : Child, 0 < b.cost →
        minAndCost a b = false → minAndCost b a = false →
        minAndCost b c = false → minAndCost c b = false →
        minAndCost a c = false ∧ minAndCost c a = false)
    ∧ (∀ a b c : Child, 0 < b.cost →
        minOrCost a b = false → minOrCost b a = false →
        minOrCost b c = false → minOrCost c b = false →
        minOrCost a c = false ∧ minOrCost c a = false)
    ∧ (∀ a b c : Child, 0 < b.scost →
        minOrStrictCost a b = false → minOrStrictCost b a = false →
        minOrStrictCost b c = false → minOrStrictCost c b = false →
        minOrStrictCost a c = false ∧ minOrStrictCost c a = false) := by
  refine ⟨?_, ?_, ?_, ?_, ?_, ?_, ?_, ?_, ?_⟩
  · intro a; simp [minAndCost]
  · intro a; simp [minOrCost]
  · intro a; simp [minOrStrictCost]
  · intro a b c ha1 hb1 _ hca hcb hcc h1 h2
    simp only [minAndCost, decide_eq_true_eq, gt_iff_lt] at h1 h2 ⊢
    exact ratioLtTrans hca (by linarith) hcb (by linarith) h1 h2
  · intro a b c _ hb _ hca hcb hcc h1 h2
    simp only [minOrCost, decide_eq_true_eq, gt_iff_lt] at h1 h2 ⊢
    exact ratioLtTrans hca hb hcb (by linarith) h1 h2
  · intro a b c _ hb _ hca hcb hcc h1 h2
    simp only [minOrStrictCost, decide_eq_true_eq, gt_iff_lt] at h1 h2 ⊢
    exact ratioLtTrans hca hb hcb (by linarith) h1 h2
  · intro a b c hb h1 h2 h3 h4
    simp only [minAndCost, decide_eq_false_iff_not, gt_iff_lt, not_lt] at h1 h2 h3 h4 ⊢
    have e1 : (1 - a.est) * b.cost = (1 - b.est) * a.cost := le_antisymm h1 h2
    have e2 : (1 - b.est) * c.cost = (1 - c.est) * b.cost := le_antisymm h3 h4
    have e3 := ratioTieTrans (ne_of_gt hb) e1 e2
    exact ⟨le_of_eq e3, le_of_eq e3.symm⟩
  · intro a b c hb h1 h2 h3 h4
    simp only [minOrCost, decide_eq_false_iff_not, gt_iff_lt, not_lt] at h1 h2 h3 h4 ⊢
    have e1 : a.est * b.cost = b.est * a.cost := le_antisymm h1 h2
    have e2 : b.est * c.cost = c.est * b.cost := le_antisymm h3 h4
    have e3 := ratioTieTrans (ne_of_gt hb) e1 e2
    exact ⟨le_of_eq e3, le_of_eq e3.symm⟩
  · intro a b c hb h1 h2 h3 h4
    simp only [minOrStrictCost, decide_eq_false_iff_not, gt_iff_lt, not_lt] at h1 h2 h3 h4 ⊢
    have e1 : a.est * b.scost = b.est * a.scost := le_antisymm h1 h2
    have e2 : b.est * c.scost = c.est * b.scost := le_antisymm h3 h4
    have e3 := ratioTieTrans (ne_of_gt hb) e1 e2
    exact ⟨le_of_eq e3, le_of_eq e3.symm⟩

/-- C5 witness: the amended ordering properties instantiated on concrete
children within the amended domain. -/
theorem comparators_swo_witness :
    minAndCost ⟨1/2, 1, 1⟩ ⟨1/2, 1, 1⟩ = false
    ∧ minOrCost ⟨1/2, 1, 1⟩ ⟨1/2, 1, 1⟩ = false
    ∧ minOrStrictCost ⟨1/2, 1, 1⟩ ⟨1/2, 1, 1⟩ = false
    ∧ minAndCost ⟨0, 1, 1⟩ ⟨3/4, 1, 1⟩ = true
    ∧ minOrCost ⟨1, 1, 1⟩ ⟨1/4, 1, 1⟩ = true
    ∧ minOrStrictCost ⟨1, 1, 1⟩ ⟨1/4, 1, 1⟩ = true
    ∧ (minAndCost ⟨1/3, 1, 1⟩ ⟨1/3, 1, 1⟩ = false ∧ minAndCost ⟨1/3, 1, 1⟩ ⟨1/3, 1, 1⟩ = false)
    ∧ (minOrCost ⟨1/3, 1, 1⟩ ⟨1/3, 1, 1⟩ = false ∧ minOrCost ⟨1/3, 1, 1⟩ ⟨1/3, 1, 1⟩ = false)
    ∧ (minOrStrictCost ⟨1/3, 1, 1⟩ ⟨1/3, 1, 1⟩ = false ∧ minOrStrictCost ⟨1/3, 1, 1⟩ ⟨1/3, 1, 1⟩ = false) :=
  ⟨comparators_swo.1 _,
   comparators_swo.2.1 _,
   comparators_swo.2.2.1 _,
   comparators_swo.2.2.2.1 ⟨0, 1, 1⟩ ⟨1/2, 1, 1⟩ ⟨3/4, 1, 1⟩
     (by norm_num) (by norm_num) (by norm_num) (by norm_num) (by norm_num) (by norm_num)
     (by norm_num [minAndCost]) (by norm_num [minAndCost]),
   comparators_swo.2.2.2.2.1 ⟨1, 1, 1⟩ ⟨1/2, 1, 1⟩ ⟨1/4, 1, 1⟩
     (by norm_num) (by norm_num) (by norm_num) (by norm_num) (by norm_num) (by norm_num)
     (by norm_num [minOrCost]) (by norm_num [minOrCost]),
   comparators_swo.2.2.2.2.2.1 ⟨1, 1, 1⟩ ⟨1/2, 1, 1⟩ ⟨1/4, 1, 1⟩
     (by norm_num) (by norm_num) (by norm_num) (by norm_num) (by norm_num) (by norm_num)
     (by norm_num [minOrStrictCost]) (by norm_num [minOrStrictCost]),
   comparators_swo.2.2.2.2.2.2.1 ⟨1/3, 1, 1⟩ ⟨1/3, 1, 1⟩ ⟨1/3, 1, 1⟩
     (by norm_num)
     (by norm_num [minAndCost]) (by norm_num [minAndCost])
     (by norm_num [minAndCost]) (by norm_num [minAndCost]),
   comparators_swo.2.2.2.2.2.2.2.1 ⟨1/3, 1, 1⟩ ⟨1/3, 1, 1⟩ ⟨1/3, 1, 1⟩
     (by norm_num)
     (by norm_num [minOrCost]) (by norm_num [minOrCost])
     (by norm_num [minOrCost]) (by norm_num [minOrCost]),
   comparators_swo.2.2.2.2.2.2.2.2 ⟨1/3, 1, 1⟩ ⟨1/3, 1, 1⟩ ⟨1/3, 1, 1⟩
     (by norm_num)
     (by norm_num [minOrStrictCost]) (by norm_num [minOrStrictCost])
     (by norm_num [minOrStrictCost]) (by norm_num [minOrStrictCost])⟩

/-! ## Exchange property of the MinAndCost order -/

theorem minAndCost_total (a b : Child) : minAndCost b a = false ∨ minAndCost a b = false := by
  cases hba : minAndCost b a with
  | false => exact Or.inl rfl
  | true =>
      right
      simp only [minAndCost, decide_eq_true_eq, gt_iff_lt] at hba
      simp only [minAndCost, decide_eq_false_iff_not, gt_iff_lt, not_lt]
      exact le_of_lt hba

theorem chainOrderedInsert (cmp : Child → Child → Bool)
    (total : ∀ a b : Child, cmp b a = false ∨ cmp a b = false) (a : Child) :
    ∀ l : List Child, List.Chain' (fun x y => cmp y x = false) l →
      List.Chain' (fun x y => cmp y x = false)
        (List.orderedInsert (fun x y => cmp y x = false) a l) := by
  intro l
  induction l with
  | nil => intro _; simp
  | cons b bs ih =>
      intro h
      by_cases hab : cmp b a = false
      · simp only [List.orderedInsert]
        rw [if_pos hab]
        exact List.chain'_cons.mpr ⟨hab, h⟩
      · simp only [List.orderedInsert]
        rw [if_neg hab]
        have hrba : cmp a b = false := by
          rcases total a b with h1 | h1
          · exact absurd h1 hab
          · exact h1
        refine List.chain'_cons'.mpr ⟨?_, ih h.tail⟩
        intro y hy
        cases bs with
        | nil =>
            simp only [List.orderedInsert, List.head?_cons, Option.mem_some_iff] at hy
            subst hy
            exact hrba
        | cons c cs =>
            by_cases hac : cmp c a = false
            · simp only [List.orderedInsert] at hy
              rw [if_pos hac] at hy
              simp only [List.head?_cons, Option.mem_some_iff] at hy
              subst hy
              exact hrba
            · simp only [List.orderedInsert] at hy
              rw [if_neg hac] at hy
              simp only [List.head?_cons, Option.mem_some_iff] at hy
              subst hy
              exact (List.chain'_cons.mp h).1

theorem chainSortBy (cmp : Child → Child → Bool)
    (total : ∀ a b : Child, cmp b a = false ∨ cmp a b = false) (l : List Child) :
    List.Chain' (fun x y => cmp y x = false) (sortBy cmp l) := by
  induction l with
  | nil => simp [sortBy]
  | cons x xs ih =>
      have h := chainOrderedInsert cmp total x
        (List.insertionSort (fun a b => cmp b a = false) xs) ih
      simpa [sortBy, List.insertionSort] using h

theorem weightedCostSum_swapAdj : ∀ (i : Nat) (m : List Child) (f : ℚ), 0 ≤ f →
    (∀ x ∈ m, 0 ≤ x.est) →
    List.Chain' (fun x y => minAndCost y x = false) m →
    weightedCostSum f m ≤ weightedCostSum f (swapAdj m i) := by
  intro i
  induction i with
  | zero =>
      intro m f hf hm hc
      rcases m with _ | ⟨a, _ | ⟨b, rest⟩⟩
      · simp [swapAdj]
      · simp [swapAdj]
      · have hab : minAndCost b a = false := (List.chain'_cons.mp hc).1
        simp only [minAndCost, decide_eq_false_iff_not, gt_iff_lt, not_lt] at hab
        simp only [swapAdj, weightedCostSum]
        have hW : weightedCostSum (f * a.est * b.est) rest
            = weightedCostSum (f * b.est * a.est) rest := by
          rw [mul_right_comm]
        rw [hW]
        have key : f * ((1 - b.est) * a.cost) ≤ f * ((1 - a.est) * b.cost) :=
          mul_le_mul_of_nonneg_left hab hf
        nlinarith [key]
  | succ n ih =>
      intro m f hf hm hc
      rcases m with _ | ⟨x, rest⟩
      · simp [swapAdj]
      · simp only [swapAdj, weightedCostSum]
        have hx : 0 ≤ x.est := (hm x (List.mem_cons_self _ _))
        exact add_le_add_left
          (ih rest (f * x.est) (mul_nonneg hf hx)
            (fun y hy => hm y (List.mem_cons_of_mem _ hy)) hc.tail) _

/-- C3: for children with estimates in `[0,1]` and costs `>= 0`, swapping
any two adjacent children of the MinAndCost-sorted order does not
decrease the total non-strict AND cost computed by `ordered_cost_of` with
`AndFlow(1.0, false)`. -/
theorem minAndCost_exchange (l : List Child)
    (hE : ∀ x ∈ l, 0 ≤ x.est ∧ x.est ≤ 1) (hC : ∀ x ∈ l, 0 ≤ x.cost) (i : Nat) :
    flow.ordered_cost_of (sortBy minAndCost l) (AndFlow.init 1 false)
      ≤ flow.ordered_cost_of (swapAdj (sortBy minAndCost l) i) (AndFlow.init 1 false) := by
  have h1 : flow.ordered_cost_of (sortBy minAndCost l) (AndFlow.init 1 false)
      = weightedCostSum 1 (sortBy minAndCost l) :=
    andOrderedCostWeighted _ 1 false true rfl
  have h2 : flow.ordered_cost_of (swapAdj (sortBy minAndCost l) i) (AndFlow.init 1 false)
      = weightedCostSum 1 (swapAdj (sortBy minAndCost l) i) :=
    andOrderedCostWeighted _ 1 false true rfl
  rw [h1, h2]
  refine weightedCostSum_swapAdj i (sortBy minAndCost l) 1 (by norm_num) ?_ ?_
  · intro x hx
    have hx2 : x ∈ l :=
      (List.perm_insertionSort (fun a b => minAndCost b a = false) l).subset hx
    exact (hE x hx2).1
  · exact chainSortBy minAndCost minAndCost_total l

/-- C3 witness: the exchange inequality on a concrete sorted pair. -/
theorem minAndCost_exchange_witness :
    flow.ordered_cost_of (sortBy minAndCost [⟨1/2, 1, 1⟩, ⟨0, 2, 1⟩]) (AndFlow.init 1 false)
      ≤ flow.ordered_cost_of (swapAdj (sortBy minAndCost [⟨1/2, 1, 1⟩, ⟨0, 2, 1⟩]) 0)
          (AndFlow.init 1 false) :=
  minAndCost_exchange [⟨1/2, 1, 1⟩, ⟨0, 2, 1⟩]
    (by
      intro x hx
      simp only [List.mem_cons, List.not_mem_nil, or_false] at hx
      rcases hx with rfl | rfl <;> norm_num)
    (by
      intro x hx
      simp only [List.mem_cons, List.not_mem_nil, or_false] at hx
      rcases hx with rfl | rfl <;> norm_num) 0

/-! ## Strict-child selection -/

/-- C1 counterexample: on children `[(est 0, cost 0, strict 1/2),
(est 0, cost 2, strict 1)]` the code returns index 0, although under the
claim reading (raw `cost(i)` subtracted) the candidate values are
`[1/2, -1]`, whose minimum sits at index 1. -/
theorem select_strict_cex :
    flow.select_strict_and_child [⟨0, 0, 1/2⟩, ⟨0, 2, 1⟩] = 0
    ∧ claimDiffs 0 1 [⟨0, 0, 1/2⟩, ⟨0, 2, 1⟩] = [1/2, -1]
    ∧ ((-1 : ℚ) < 1/2) := by
  refine ⟨?_, ?_, by norm_num⟩
  · norm_num [flow.select_strict_and_child, flow.selStep]
  · norm_num [claimDiffs]

theorem selFold_spec : ∀ (rest : List Child) (s : flow.SelState), s.idx ≠ 0 →
    ((rest.foldl flow.selStep s).best_idx = s.best_idx
        ∧ (rest.foldl flow.selStep s).best_diff = s.best_diff
      ∨ ∃ k, k < rest.length ∧ (rest.foldl flow.selStep s).best_idx = s.idx + k
          ∧ (rest.foldl flow.selStep s).best_diff = (codeDiffs s.cost s.est rest).getD k 0)
    ∧ (rest.foldl flow.selStep s).best_diff ≤ s.best_diff
    ∧ ∀ v ∈ codeDiffs s.cost s.est rest, (rest.foldl flow.selStep s).best_diff ≤ v := by
  intro rest
  induction rest with
  | nil =>
      intro s hidx
      refine ⟨Or.inl ⟨rfl, rfl⟩, le_refl _, ?_⟩
      intro v hv
      simp [codeDiffs] at hv
  | cons c cs ih =>
      intro s hidx
      have hfold : List.foldl flow.selStep s (c :: cs)
          = List.foldl flow.selStep (flow.selStep s c) cs := rfl
      have hdiffs : codeDiffs s.cost s.est (c :: cs)
          = (c.scost + c.est * s.cost - (s.cost + s.est * c.cost))
              :: codeDiffs (s.cost + s.est * c.cost) (s.est * c.est) cs := rfl
      by_cases hlt : c.scost + c.est * s.cost - (s.cost + s.est * c.cost) < s.best_diff
      · have hsc : flow.selStep s c
            = (⟨s.idx + 1, s.cost + s.est * c.cost, s.idx,
                c.scost + c.est * s.cost - (s.cost + s.est * c.cost),
                s.est * c.est⟩ : flow.SelState) := by
          simp only [flow.selStep]
          rw [if_neg hidx, if_pos hlt]
        obtain ⟨hpos, hle, hall⟩ :=
          ih (⟨s.idx + 1, s.cost + s.est * c.cost, s.idx,
               c.scost + c.est * s.cost - (s.cost + s.est * c.cost),
               s.est * c.est⟩ : flow.SelState) (Nat.succ_ne_zero _)
        rw [hfold, hsc, hdiffs]
        refine ⟨?_, ?_, ?_⟩
        · rcases hpos with ⟨h1, h2⟩ | ⟨k, hk, h1, h2⟩
          · refine Or.inr ⟨0, Nat.succ_pos _, ?_, ?_⟩
            · simpa using h1
            · simpa using h2
          · refine Or.inr ⟨k + 1, by simpa using Nat.succ_lt_succ hk, ?_, ?_⟩
            · rw [h1]
              show s.idx + 1 + k = s.idx + (k + 1)
              omega
            · rw [h2, List.getD_cons_succ]
        · exact le_of_lt (lt_of_le_of_lt hle hlt)
        · intro v hv
          rcases List.mem_cons.mp hv with rfl | hv2
          · exact hle
          · exact hall v hv2
      · have hsc : flow.selStep s c
            = (⟨s.idx + 1, s.cost + s.est * c.cost, s.best_idx, s.best_diff,
                s.est * c.est⟩ : flow.SelState) := by
          simp only [flow.selStep]
          rw [if_neg hidx, if_neg hlt]
        obtain ⟨hpos, hle, hall⟩ :=
          ih (⟨s.idx + 1, s.cost + s.est * c.cost, s.best_idx, s.best_diff,
               s.est * c.est⟩ : flow.SelState) (Nat.succ_ne_zero _)
        rw [hfold, hsc, hdiffs]
        refine ⟨?_, ?_, ?_⟩
        · rcases hpos with ⟨h1, h2⟩ | ⟨k, hk, h1, h2⟩
          · exact Or.inl ⟨h1, h2⟩
          · refine Or.inr ⟨k + 1, by simpa using Nat.succ_lt_succ hk, ?_, ?_⟩
            · rw [h1]
              show s.idx + 1 + k = s.idx + (k + 1)
              omega
            · rw [h2, List.getD_cons_succ]
        · exact hle
        · intro v hv
          rcases List.mem_cons.mp hv with rfl | hv2
          · exact le_trans hle (not_lt.mp hlt)
          · exact hall v hv2

/-- C1 amended: for a non-empty child sequence,
`select_strict_and_child` returns a valid index whose candidate value is
minimal among all candidate values, where (as in the code) the cost term
subtracted for candidate `i` is the raw child cost scaled by the running
estimate product of the earlier children (`child_cost = est * cost(child)`),
not the raw child cost alone. -/
theorem select_strict_minimizes (l : List Child) (h : l ≠ []) :
    flow.select_strict_and_child l < l.length
    ∧ ∀ v ∈ codeDiffs 0 1 l,
        (codeDiffs 0 1 l).getD (flow.select_strict_and_child l) 0 ≤ v := by
  rcases l with _ | ⟨c, cs⟩
  · exact absurd rfl h
  have hs1 : flow.selStep ⟨0, 0, 0, 0, 1⟩ c
      = (⟨1, c.cost, 0, c.scost - c.cost, c.est⟩ : flow.SelState) := by
    simp [flow.selStep]
  have hsel : flow.select_strict_and_child (c :: cs)
      = (List.foldl flow.selStep (⟨1, c.cost, 0, c.scost - c.cost, c.est⟩ : flow.SelState) cs).best_idx := by
    simp only [flow.select_strict_and_child]
    rw [show List.foldl flow.selStep (⟨0, 0, 0, 0, 1⟩ : flow.SelState) (c :: cs)
        = List.foldl flow.selStep (flow.selStep ⟨0, 0, 0, 0, 1⟩ c) cs from rfl, hs1]
  have hdiffs : codeDiffs 0 1 (c :: cs)
      = (c.scost - c.cost) :: codeDiffs c.cost c.est cs := by
    simp [codeDiffs]
  obtain ⟨hpos, hle, hall⟩ :=
    selFold_spec cs (⟨1, c.cost, 0, c.scost - c.cost, c.est⟩ : flow.SelState) one_ne_zero
  constructor
  · rw [hsel]
    rcases hpos with ⟨h1, _⟩ | ⟨k, hk, h1, _⟩
    · rw [h1]; exact Nat.succ_pos _
    · rw [h1]
      show 1 + k < (c :: cs).length
      simp only [List.length_cons]
      omega
  · intro v hv
    rw [hsel, hdiffs]
    rw [hdiffs] at hv
    have hvge : (List.foldl flow.selStep (⟨1, c.cost, 0, c.scost - c.cost, c.est⟩ : flow.SelState) cs).best_diff ≤ v := by
      rcases List.mem_cons.mp hv with rfl | hv2
      · exact hle
      · exact hall v hv2
    rcases hpos with ⟨h1, h2⟩ | ⟨k, hk, h1, h2⟩
    · have h1a : (List.foldl flow.selStep
          (⟨1, c.cost, 0, c.scost - c.cost, c.est⟩ : flow.SelState) cs).best_idx = 0 := h1
      have h2a : (List.foldl flow.selStep
          (⟨1, c.cost, 0, c.scost - c.cost, c.est⟩ : flow.SelState) cs).best_diff
          = c.scost - c.cost := h2
      rw [h1a, List.getD_cons_zero, ← h2a]
      exact hvge
    · have h1a : (List.foldl flow.selStep
          (⟨1, c.cost, 0, c.scost - c.cost, c.est⟩ : flow.SelState) cs).best_idx = 1 + k := h1
      have h2a : (List.foldl flow.selStep
          (⟨1, c.cost, 0, c.scost - c.cost, c.est⟩ : flow.SelState) cs).best_diff
          = (codeDiffs c.cost c.est cs).getD k 0 := h2
      rw [h1a, show (1 : Nat) + k = k + 1 from Nat.add_comm 1 k, List.getD_cons_succ, ← h2a]
      exact hvge

/-- C1 witness: the amended minimality statement on a one-child list. -/
theorem select_strict_minimizes_witness :
    flow.select_strict_and_child [⟨0, 0, 0⟩] < 1
    ∧ ∀ v ∈ codeDiffs 0 1 [⟨0, 0, 0⟩],
        (codeDiffs 0 1 [⟨0, 0, 0⟩]).getD (flow.select_strict_and_child [⟨0, 0, 0⟩]) 0 ≤ v := by
  have h := select_strict_minimizes [⟨0, 0, 0⟩] (by simp)
  simpa using h

end Vespa
